import Mathlib

/-!
Shallow embedding of the `based-rollup-driver` event-ingestion core
(`src/event_indexer/event_indexer.rs`, `src/event_indexer/common.rs`,
`src/da_watcher/mod.rs`).

Modelling conventions:
* Machine integers (`u64`, `u32`) are modelled as `Nat`; none of the verified
  operations overflows within the claims' hypotheses (`batch_size ≥ 1` keeps
  `current + batch_size - 1` from underflowing, mirroring the Rust code where
  `batch_size = 0` underflows/diverges).
* The async provider is modelled by explicit oracles: `get_block_number`
  becomes the parameter `latest_block`, `get_logs` becomes a function of the
  filter (and, for the retry loop, of the attempt index), `subscribe_blocks`
  becomes the list `heads` of observed block headers.
* Fallible calls return `Except String α`; `?`-propagation is explicit
  pattern matching.
* The indexer's mutable fields `last_indexed_block` / `is_indexing` are an
  explicit `IndexerState` threaded through each operation.
* `while` loops become fuel-indexed structural recursion; the fuel
  `to_block + 1 - from_block` is exactly the iteration count of the Rust loop
  whenever `batch_size ≥ 1`, and exhausted fuel yields an `error` marking the
  divergence of the Rust loop for `batch_size = 0`.
-/

namespace BasedRollup

/-- Model of `alloy::rpc::types::Log`: only the fields the indexer reads. -/
structure Log where
  block_number : Option Nat
  transaction_hash : Nat
deriving DecidableEq

/-- Model of the `alloy` log filter built in `fetch_logs_range`:
`Filter::new().from_block(from).to_block(to).address(addr).event_signature(topic)`. -/
structure Filter where
  from_block : Nat
  to_block : Nat
  address : Nat
  topic : Nat
deriving DecidableEq

/-- `EventIndexerConfig` from `src/event_indexer/common.rs`. -/
structure EventIndexerConfig where
  batch_size : Nat
  max_retries : Nat
  retry_delay_ms : Nat
  max_block_range : Nat
deriving DecidableEq

/-- `impl Default for EventIndexerConfig`. -/
def EventIndexerConfig.default : EventIndexerConfig :=
  { batch_size := 1000, max_retries := 3, retry_delay_ms := 1000, max_block_range := 10000 }

/-- The indexer's mutable state: fields `last_indexed_block` and `is_indexing`
of `EventIndexer`. -/
structure IndexerState where
  last_indexed_block : Nat
  is_indexing : Bool
deriving DecidableEq

/-- `EventIndexer::new`: `last_indexed_block: 0, is_indexing: false`
(address and topic are `Address::ZERO` / `B256::ZERO`, modelled as `0`). -/
def IndexerState.new : IndexerState := { last_indexed_block := 0, is_indexing := false }

/-- The hardcoded `const MAX_RETRIES: u32 = 3` inside `fetch_logs_range`. -/
def MAX_RETRIES : Nat := 3

instance {ε α : Type} [DecidableEq ε] [DecidableEq α] : DecidableEq (Except ε α) := fun x y =>
  match x, y with
  | .ok a, .ok b => if h : a = b then .isTrue (by rw [h]) else .isFalse (by simp [h])
  | .error a, .error b => if h : a = b then .isTrue (by rw [h]) else .isFalse (by simp [h])
  | .ok _, .error _ => .isFalse (by simp)
  | .error _, .ok _ => .isFalse (by simp)

/-- Trace of one `fetch_logs_range` call: its result, the filters of the
`get_logs` calls it issued (in order), and the sleep durations (ms, in order). -/
structure FetchTrace where
  result : Except String (List Log)
  calls : List Filter
  delays : List Nat
deriving DecidableEq

/-- The retry loop of `fetch_logs_range`: `retries` starts at `0`; a failed
attempt with `retries < MAX_RETRIES` increments `retries`, sleeps
`1000 * retries` ms and retries; otherwise the error is returned. The oracle
`get_logs` takes the filter and the 0-based attempt index. The structural
parameter `remaining` carries `MAX_RETRIES - retries`, so `remaining > 0` is
exactly the Rust guard `retries < MAX_RETRIES`. -/
def fetchGo (get_logs : Filter → Nat → Except String (List Log)) (filter : Filter) :
    Nat → Nat → FetchTrace
  | remaining, retries =>
    match get_logs filter retries with
    | .ok logs => ⟨.ok logs, [filter], []⟩
    | .error e =>
      match remaining with
      | 0 => ⟨.error e, [filter], []⟩
      | r + 1 =>
        let rest := fetchGo get_logs filter r (retries + 1)
        ⟨rest.result, filter :: rest.calls, 1000 * (retries + 1) :: rest.delays⟩

/-- `EventIndexer::fetch_logs_range`: builds the filter once, then runs the
retry loop starting at `retries = 0` (so `MAX_RETRIES` retries remain). -/
def fetch_logs_range (get_logs : Filter → Nat → Except String (List Log))
    (address topic fromB toB : Nat) : FetchTrace :=
  fetchGo get_logs ⟨fromB, toB, address, topic⟩ MAX_RETRIES 0

/-- `EventIndexer::process_log`: emits a log line and returns `Ok(())`. -/
def process_log (_log : Log) : Except String Unit := .ok ()

/-- The `for log in all_logs { self.process_log(&log).await?; }` loop. -/
def processAll : List Log → Except String Unit
  | [] => .ok ()
  | l :: ls =>
    match process_log l with
    | .error e => .error e
    | .ok _ => processAll ls

/-- Result of the batching `while` loop inside `index_events`: the accumulated
logs (or the first propagated error), the cursor value, and the sub-ranges on
which `fetch_logs_range` was invoked, in order (a failing call included). -/
structure LoopOut where
  result : Except String (List Log)
  cursor : Nat
  ranges : List (Nat × Nat)
deriving DecidableEq

/-- The `while current <= to_block` loop of `index_events`, fuel-indexed:
`end = min(current + batch_size - 1, to_block)`; a successful fetch appends the
logs and sets `last_indexed_block = end`, `current = end + 1`; a failed fetch
propagates (`?`) leaving the cursor at its current value. The `fetch` oracle
abstracts `fetch_logs_range current end` (retries folded in). -/
def indexLoop (fetch : Nat → Nat → Except String (List Log)) (bs toB : Nat) :
    Nat → Nat → Nat → LoopOut
  | 0, cur, cursor =>
    if cur ≤ toB then ⟨.error "nonterminating", cursor, []⟩ else ⟨.ok [], cursor, []⟩
  | fuel + 1, cur, cursor =>
    if cur ≤ toB then
      let e := min (cur + bs - 1) toB
      match fetch cur e with
      | .error msg => ⟨.error msg, cursor, [(cur, e)]⟩
      | .ok logs =>
        let rest := indexLoop fetch bs toB fuel (e + 1) e
        ⟨Except.map (fun ls => logs ++ ls) rest.result, rest.cursor, (cur, e) :: rest.ranges⟩
    else ⟨.ok [], cursor, []⟩

/-- Result of `index_events` / `subscribe_and_index`: the returned
`Result<(), _>`, the final indexer state, and the fetched sub-ranges. -/
structure IndexOut where
  result : Except String Unit
  state : IndexerState
  ranges : List (Nat × Nat)
deriving DecidableEq

/-- `EventIndexer::index_events(from_block, to_block)`: sets `is_indexing = true`,
runs the batching loop (fuel `to_block + 1 - from_block` = its iteration count
for `batch_size ≥ 1`), then processes the accumulated logs. `is_indexing` is
reset to `false` only on the success path (an early `?` return skips it). -/
def index_events (fetch : Nat → Nat → Except String (List Log)) (bs : Nat)
    (from_block to_block : Nat) (s : IndexerState) : IndexOut :=
  let lo := indexLoop fetch bs to_block (to_block + 1 - from_block)
    from_block s.last_indexed_block
  match lo.result with
  | .error e => ⟨.error e, ⟨lo.cursor, true⟩, lo.ranges⟩
  | .ok logs =>
    match processAll logs with
    | .error e => ⟨.error e, ⟨lo.cursor, true⟩, lo.ranges⟩
    | .ok _ => ⟨.ok (), ⟨lo.cursor, false⟩, lo.ranges⟩

/-- The `while let Some(block) = block_stream.next()` loop of
`subscribe_and_index`: for each observed head `h`, `from = cursor + 1`, fetch
`[from, h]`, process the logs, then set `cursor = h`. An error leaves the
cursor at its pre-iteration value. -/
def subLoop (fetch : Nat → Nat → Except String (List Log)) :
    List Nat → Nat → LoopOut
  | [], cursor => ⟨.ok [], cursor, []⟩
  | h :: hs, cursor =>
    match fetch (cursor + 1) h with
    | .error e => ⟨.error e, cursor, [(cursor + 1, h)]⟩
    | .ok logs =>
      match processAll logs with
      | .error e => ⟨.error e, cursor, [(cursor + 1, h)]⟩
      | .ok _ =>
        let rest := subLoop fetch hs h
        ⟨Except.map (fun ls => logs ++ ls) rest.result, rest.cursor, (cursor + 1, h) :: rest.ranges⟩

/-- `EventIndexer::subscribe_and_index`: the block subscription is modelled by
the list `heads` of observed block numbers (stream end = `Ok(())`); the
subscription handshake itself is assumed to succeed. `is_indexing` is not
touched by this phase. -/
def subscribe_and_index (fetch : Nat → Nat → Except String (List Log))
    (heads : List Nat) (s : IndexerState) : IndexOut :=
  let so := subLoop fetch heads s.last_indexed_block
  ⟨Except.map (fun _ => ()) so.result, ⟨so.cursor, s.is_indexing⟩, so.ranges⟩

/-- Result of `EventIndexer::run`: the returned `Result`, the final state, the
historical-phase fetch ranges and the live-phase fetch ranges. -/
structure RunOut where
  result : Except String Unit
  state : IndexerState
  histRanges : List (Nat × Nat)
  liveRanges : List (Nat × Nat)
deriving DecidableEq

/-- `EventIndexer::run(start_block)`: `get_block_number` is the parameter
`latest_block` (assumed to succeed); `start = start_block.unwrap_or(cursor)`;
the cursor is set to `start`; if `start < latest_block` the historical phase
`index_events(start, latest_block)` runs (its error propagating); then the live
phase `subscribe_and_index` runs. -/
def run (cfg : EventIndexerConfig) (latest_block : Nat)
    (fetch : Nat → Nat → Except String (List Log)) (heads : List Nat)
    (start_block : Option Nat) (s : IndexerState) : RunOut :=
  let start := start_block.getD s.last_indexed_block
  let s1 : IndexerState := ⟨start, s.is_indexing⟩
  if start < latest_block then
    let ie := index_events fetch cfg.batch_size start latest_block s1
    match ie.result with
    | .error e => ⟨.error e, ie.state, ie.ranges, []⟩
    | .ok _ =>
      let so := subscribe_and_index fetch heads ie.state
      ⟨so.result, so.state, ie.ranges, so.ranges⟩
  else
    let so := subscribe_and_index fetch heads s1
    ⟨so.result, so.state, [], so.ranges⟩

/-!
## DAWatcher model (`src/da_watcher/mod.rs`)

`DAWatcher::watch` spawns a producer task
(`loop { send manifest(block_number); if send failed break; block_number += 1; sleep }`)
over a `tokio::sync::mpsc::channel(buffer_size)`. The producer/consumer
interleaving is modelled as a labelled-transition system. Channel semantics
follow the tokio bounded-mpsc contract: `send` completes only while the
receiver is alive and fewer than `cap` messages are buffered; `send` fails
(and the task breaks) once the receiver is dropped; `recv` pops the oldest
buffered message; dropping the receiver discards the buffer. Manifests are
identified by their `block_number` (0, 1, 2, … in production order).
-/

/-- Program counter of the producer task: about to `send`, between a
successful `send` and the next iteration (`+= 1` and `sleep`), or broken out
of the loop. -/
inductive ProducerPC
  | beforeSend
  | afterSend
  | done
deriving DecidableEq

/-- Global state of the watcher system: producer locals, channel buffer,
receiver liveness, and the manifests the consumer has received. -/
structure WatchState where
  pc : ProducerPC
  block_number : Nat
  queue : List Nat
  receiverAlive : Bool
  received : List Nat
deriving DecidableEq

/-- State right after `watch` returns: producer at loop top with
`block_number = 0`, empty channel, live receiver. -/
def WatchState.init : WatchState :=
  { pc := .beforeSend, block_number := 0, queue := [], receiverAlive := true, received := [] }

/-- One interleaving step of the watcher system with channel capacity `cap`. -/
inductive WStep (cap : Nat) : WatchState → WatchState → Prop
  | sendOk {s : WatchState} :
      s.pc = .beforeSend → s.receiverAlive = true → s.queue.length < cap →
      WStep cap s { s with queue := s.queue ++ [s.block_number], pc := .afterSend }
  | sendClosed {s : WatchState} :
      s.pc = .beforeSend → s.receiverAlive = false →
      WStep cap s { s with pc := .done }
  | tick {s : WatchState} :
      s.pc = .afterSend →
      WStep cap s { s with block_number := s.block_number + 1, pc := .beforeSend }
  | recv {s : WatchState} (m : Nat) (rest : List Nat) :
      s.receiverAlive = true → s.queue = m :: rest →
      WStep cap s { s with queue := rest, received := s.received ++ [m] }
  | dropReceiver {s : WatchState} :
      s.receiverAlive = true →
      WStep cap s { s with receiverAlive := false, queue := [] }

/-- States reachable from `WatchState.init` by interleaving steps. -/
inductive WReachable (cap : Nat) : WatchState → Prop
  | init : WReachable cap WatchState.init
  | step {s t : WatchState} : WReachable cap s → WStep cap s t → WReachable cap t

/-!
## Helper lemmas
-/

/-- `process_log` always succeeds, so the processing loop always succeeds. -/
theorem processAll_ok (logs : List Log) : processAll logs = .ok () := by
  induction logs with
  | nil => rfl
  | cons l ls ih => simpa [processAll, process_log] using ih

/-- Retry loop, success case: if attempts `retries, …, retries + N - 1` fail
and attempt `retries + N` succeeds, with `N` within the remaining budget, the
loop returns the successful result after `N + 1` identically-filtered calls,
sleeping `1000 * (retries + i + 1)` ms before the `i`-th retry. -/
theorem fetchGo_ok_spec (gl : Filter → Nat → Except String (List Log)) (filt : Filter) :
    ∀ (N remaining retries : Nat), N ≤ remaining →
    (∀ k, k < N → ∃ e, gl filt (retries + k) = .error e) →
    (∃ logs, gl filt (retries + N) = .ok logs) →
    fetchGo gl filt remaining retries =
      ⟨gl filt (retries + N), List.replicate (N + 1) filt,
        (List.range N).map (fun i => 1000 * (retries + i + 1))⟩ := by
  intro N
  induction N with
  | zero =>
    intro remaining retries _ _ hok
    obtain ⟨logs, hl⟩ := hok
    simp only [Nat.add_zero] at hl
    cases remaining <;> simp [fetchGo, hl]
  | succ N ih =>
    intro remaining retries hrem hfail hok
    obtain ⟨e, he⟩ := hfail 0 (Nat.succ_pos N)
    simp only [Nat.add_zero] at he
    obtain ⟨r, rfl⟩ : ∃ r, remaining = r + 1 := by
      cases remaining with
      | zero => omega
      | succ r => exact ⟨r, rfl⟩
    have hrest := ih r (retries + 1) (by omega)
      (fun k hk => by
        have := hfail (k + 1) (by omega)
        simpa [Nat.add_assoc, Nat.add_comm 1 k] using this)
      (by
        obtain ⟨logs, hl⟩ := hok
        exact ⟨logs, by simpa [Nat.add_assoc, Nat.add_comm 1 N] using hl⟩)
    simp only [fetchGo, he, hrest, FetchTrace.mk.injEq]
    refine ⟨by rw [show retries + 1 + N = retries + (N + 1) by omega], ?_, ?_⟩
    · simp [List.replicate_succ]
    · rw [List.range_succ_eq_map, List.map_cons, List.map_map]
      congr 1
      simp only [List.map_map, Function.comp_apply, List.map_inj_left]
      intro a ha
      omega

/-- Retry loop, exhaustion case: if every attempt in the remaining budget
fails, the loop returns an error after `remaining + 1` identically-filtered
calls, with the full linear-backoff delay schedule. -/
theorem fetchGo_fail_spec (gl : Filter → Nat → Except String (List Log)) (filt : Filter) :
    ∀ (remaining retries : Nat),
    (∀ k, k ≤ remaining → ∃ e, gl filt (retries + k) = .error e) →
    ∃ e, fetchGo gl filt remaining retries =
      ⟨.error e, List.replicate (remaining + 1) filt,
        (List.range remaining).map (fun i => 1000 * (retries + i + 1))⟩ := by
  intro remaining
  induction remaining with
  | zero =>
    intro retries hfail
    obtain ⟨e, he⟩ := hfail 0 (Nat.le_refl 0)
    simp only [Nat.add_zero] at he
    exact ⟨e, by simp [fetchGo, he]⟩
  | succ r ih =>
    intro retries hfail
    obtain ⟨e, he⟩ := hfail 0 (Nat.zero_le _)
    simp only [Nat.add_zero] at he
    obtain ⟨e', hrest⟩ := ih (retries + 1)
      (fun k hk => by
        have := hfail (k + 1) (by omega)
        simpa [Nat.add_assoc, Nat.add_comm 1 k] using this)
    refine ⟨e', ?_⟩
    simp only [fetchGo, he, hrest, FetchTrace.mk.injEq]
    refine ⟨trivial, by simp [List.replicate_succ], ?_⟩
    rw [List.range_succ_eq_map, List.map_cons, List.map_map]
    congr 1
    simp only [List.map_map, Function.comp_apply, List.map_inj_left]
    intro a ha
    omega

/-- `ChainCover bs lo hi l`: `l` is the exact batch decomposition the
`index_events` loop produces for the interval `[lo, hi]`: ranges are
consecutive starting at `lo`, each nonempty of length `≤ bs`, ending exactly
at `hi`. -/
def ChainCover (bs : Nat) : Nat → Nat → List (Nat × Nat) → Prop
  | lo, hi, [] => hi + 1 ≤ lo
  | lo, hi, r :: rest =>
    r.1 = lo ∧ lo ≤ r.2 ∧ r.2 ≤ hi ∧ r.2 + 1 ≤ lo + bs ∧ ChainCover bs (r.2 + 1) hi rest

theorem cc_bounds {bs : Nat} : ∀ {l : List (Nat × Nat)} {lo hi : Nat},
    ChainCover bs lo hi l →
    ∀ r ∈ l, lo ≤ r.1 ∧ r.1 ≤ r.2 ∧ r.2 ≤ hi ∧ r.2 + 1 ≤ r.1 + bs := by
  intro l
  induction l with
  | nil => intro lo hi _ r hr; cases hr
  | cons x xs ih =>
    intro lo hi hcc r hr
    obtain ⟨h1, h2, h3, h4, h5⟩ := hcc
    rcases List.mem_cons.mp hr with rfl | hr
    · exact ⟨by omega, by omega, h3, by omega⟩
    · have := ih h5 r hr
      exact ⟨by omega, this.2.1, this.2.2.1, this.2.2.2⟩

theorem cc_pairwise {bs : Nat} : ∀ {l : List (Nat × Nat)} {lo hi : Nat},
    ChainCover bs lo hi l → l.Pairwise (fun r q => r.2 < q.1) := by
  intro l
  induction l with
  | nil => intro lo hi _; exact List.Pairwise.nil
  | cons x xs ih =>
    intro lo hi hcc
    obtain ⟨h1, h2, h3, h4, h5⟩ := hcc
    refine List.Pairwise.cons ?_ (ih h5)
    intro q hq
    have := (cc_bounds h5 q hq).1
    omega

theorem cc_chain {bs : Nat} : ∀ {l : List (Nat × Nat)} {lo hi : Nat},
    ChainCover bs lo hi l → l.Chain' (fun r q => q.1 = r.2 + 1) := by
  intro l
  induction l with
  | nil => intro lo hi _; exact List.chain'_nil
  | cons x xs ih =>
    intro lo hi hcc
    obtain ⟨h1, h2, h3, h4, h5⟩ := hcc
    cases xs with
    | nil => exact List.chain'_singleton x
    | cons y ys =>
      exact List.Chain'.cons h5.1 (ih h5)

theorem cc_cover {bs : Nat} : ∀ {l : List (Nat × Nat)} {lo hi : Nat},
    ChainCover bs lo hi l →
    ∀ n, lo ≤ n → n ≤ hi → ∃ r ∈ l, r.1 ≤ n ∧ n ≤ r.2 := by
  intro l
  induction l with
  | nil =>
    intro lo hi hcc n h1 h2
    have hle : hi + 1 ≤ lo := hcc
    omega
  | cons x xs ih =>
    intro lo hi hcc n h1 h2
    obtain ⟨hx1, hx2, hx3, hx4, h5⟩ := hcc
    by_cases hn : n ≤ x.2
    · exact ⟨x, List.mem_cons_self x xs, by omega, hn⟩
    · obtain ⟨r, hr, hb⟩ := ih h5 n (by omega) h2
      exact ⟨r, List.mem_cons_of_mem x hr, hb⟩

theorem cc_head {bs : Nat} {l : List (Nat × Nat)} {lo hi : Nat}
    (hcc : ChainCover bs lo hi l) (hle : lo ≤ hi) :
    ∃ b rest, l = (lo, b) :: rest := by
  cases l with
  | nil =>
    have h : hi + 1 ≤ lo := hcc
    omega
  | cons x xs =>
    obtain ⟨h1, -, -, -, -⟩ := hcc
    exact ⟨x.2, xs, by rw [← h1]⟩

/-- Batching loop, all-fetches-succeed case: with a positive batch size and
enough fuel (the loop's true iteration count is bounded by the interval
length), the loop succeeds, advances the cursor to `toB` (when it iterates at
all), and its fetched sub-ranges form the exact batch decomposition of
`[cur, toB]`. -/
theorem indexLoop_ok (fetch : Nat → Nat → Except String (List Log)) (bs toB : Nat)
    (hbs : 1 ≤ bs) (hok : ∀ a b, ∃ l, fetch a b = .ok l) :
    ∀ (fuel cur cursor : Nat), toB + 1 - cur ≤ fuel →
    (∃ logs, (indexLoop fetch bs toB fuel cur cursor).result = .ok logs) ∧
    (indexLoop fetch bs toB fuel cur cursor).cursor =
      (if cur ≤ toB then toB else cursor) ∧
    ChainCover bs cur toB (indexLoop fetch bs toB fuel cur cursor).ranges := by
  intro fuel
  induction fuel with
  | zero =>
    intro cur cursor hfuel
    have hgt : ¬ cur ≤ toB := by omega
    refine ⟨⟨[], ?_⟩, ?_, ?_⟩ <;> simp [indexLoop, hgt]
    · show toB + 1 ≤ cur
      omega
  | succ fuel ih =>
    intro cur cursor hfuel
    by_cases hc : cur ≤ toB
    · obtain ⟨logs, hf⟩ := hok cur (min (cur + bs - 1) toB)
      have hcur_e : cur ≤ min (cur + bs - 1) toB := by
        refine le_min (by omega) hc
      have he_to : min (cur + bs - 1) toB ≤ toB := min_le_right _ _
      obtain ⟨⟨logs', hres⟩, hcurs, hcc⟩ :=
        ih (min (cur + bs - 1) toB + 1) (min (cur + bs - 1) toB) (by omega)
      refine ⟨⟨logs ++ logs', ?_⟩, ?_, ?_⟩
      · simp [indexLoop, hc, hf, hres, Except.map]
      · simp only [indexLoop, if_pos hc, hf]
        rw [hcurs]
        split <;> simp [hc] <;> omega
      · simp only [indexLoop, if_pos hc, hf]
        refine ⟨rfl, hcur_e, he_to, by omega, hcc⟩
    · refine ⟨⟨[], ?_⟩, ?_, ?_⟩ <;> simp [indexLoop, hc]
      · show toB + 1 ≤ cur
        omega

/-- Batching loop: whenever it returns a success, the cursor landed on `toB`
(when the loop iterated) — for any fetch oracle. -/
theorem indexLoop_ok_cursor (fetch : Nat → Nat → Except String (List Log)) (bs toB : Nat)
    (hbs : 1 ≤ bs) :
    ∀ (fuel cur cursor : Nat), toB + 1 - cur ≤ fuel →
    (∃ logs, (indexLoop fetch bs toB fuel cur cursor).result = .ok logs) →
    (indexLoop fetch bs toB fuel cur cursor).cursor =
      (if cur ≤ toB then toB else cursor) := by
  intro fuel
  induction fuel with
  | zero =>
    intro cur cursor hfuel _
    have hgt : ¬ cur ≤ toB := by omega
    simp [indexLoop, hgt]
  | succ fuel ih =>
    intro cur cursor hfuel hres
    by_cases hc : cur ≤ toB
    · rcases hf : fetch cur (min (cur + bs - 1) toB) with e | logs
      · obtain ⟨logs', hres'⟩ := hres
        simp [indexLoop, hc, hf] at hres'
      · have hcur_e : cur ≤ min (cur + bs - 1) toB := le_min (by omega) hc
        obtain ⟨logs', hres'⟩ := hres
        simp only [indexLoop, if_pos hc, hf] at hres' ⊢
        have hrest : ∃ l, (indexLoop fetch bs toB fuel (min (cur + bs - 1) toB + 1)
            (min (cur + bs - 1) toB)).result = .ok l := by
          rcases hr : (indexLoop fetch bs toB fuel (min (cur + bs - 1) toB + 1)
            (min (cur + bs - 1) toB)).result with e | l
          · rw [hr] at hres'
            simp [Except.map] at hres'
          · exact ⟨l, rfl⟩
        rw [ih (min (cur + bs - 1) toB + 1) (min (cur + bs - 1) toB) (by omega) hrest]
        split <;> simp [hc] <;> omega
    · simp [indexLoop, hc]

/-- Batching loop, failure case: an error return comes from the last issued
fetch; all earlier sub-range fetches succeeded, and the cursor equals the
upper bound of the last successful sub-range (or its initial value if the
very first fetch failed). -/
theorem indexLoop_err (fetch : Nat → Nat → Except String (List Log)) (bs toB : Nat)
    (hbs : 1 ≤ bs) :
    ∀ (fuel cur cursor : Nat) (e : String), toB + 1 - cur ≤ fuel →
    (indexLoop fetch bs toB fuel cur cursor).result = .error e →
    ∃ pre a b, (indexLoop fetch bs toB fuel cur cursor).ranges = pre ++ [(a, b)] ∧
      fetch a b = .error e ∧
      (∀ r ∈ pre, ∃ l, fetch r.1 r.2 = .ok l) ∧
      (indexLoop fetch bs toB fuel cur cursor).cursor =
        pre.foldl (fun _ r => r.2) cursor := by
  intro fuel
  induction fuel with
  | zero =>
    intro cur cursor e hfuel hres
    have hgt : ¬ cur ≤ toB := by omega
    simp [indexLoop, hgt] at hres
  | succ fuel ih =>
    intro cur cursor e hfuel hres
    by_cases hc : cur ≤ toB
    · rcases hf : fetch cur (min (cur + bs - 1) toB) with e' | logs
      · simp only [indexLoop, if_pos hc, hf] at hres ⊢
        obtain rfl : e' = e := by simpa using hres
        exact ⟨[], cur, min (cur + bs - 1) toB, rfl, hf, by simp, rfl⟩
      · have hcur_e : cur ≤ min (cur + bs - 1) toB := le_min (by omega) hc
        simp only [indexLoop, if_pos hc, hf] at hres ⊢
        have hrest : (indexLoop fetch bs toB fuel (min (cur + bs - 1) toB + 1)
            (min (cur + bs - 1) toB)).result = .error e := by
          rcases hr : (indexLoop fetch bs toB fuel (min (cur + bs - 1) toB + 1)
            (min (cur + bs - 1) toB)).result with e'' | l
          · rw [hr] at hres
            simpa [Except.map] using hres
          · rw [hr] at hres
            simp [Except.map] at hres
        obtain ⟨pre, a, b, hranges, hfe, hpre, hcurs⟩ :=
          ih (min (cur + bs - 1) toB + 1) (min (cur + bs - 1) toB) e (by omega) hrest
        refine ⟨(cur, min (cur + bs - 1) toB) :: pre, a, b, ?_, hfe, ?_, ?_⟩
        · simp [hranges]
        · intro r hr
          rcases List.mem_cons.mp hr with rfl | hr
          · exact ⟨logs, hf⟩
          · exact hpre r hr
        · simpa using hcurs
    · simp [indexLoop, hc] at hres

/-- Batching loop: the cursor never decreases (for any fetch oracle), provided
it starts at or below the loop's `current` pointer and the batch size is
positive. -/
theorem indexLoop_cursor_mono (fetch : Nat → Nat → Except String (List Log)) (bs toB : Nat)
    (hbs : 1 ≤ bs) :
    ∀ (fuel cur cursor : Nat), cursor ≤ cur →
    cursor ≤ (indexLoop fetch bs toB fuel cur cursor).cursor := by
  intro fuel
  induction fuel with
  | zero =>
    intro cur cursor hle
    by_cases hc : cur ≤ toB <;> simp [indexLoop, hc]
  | succ fuel ih =>
    intro cur cursor hle
    by_cases hc : cur ≤ toB
    · rcases hf : fetch cur (min (cur + bs - 1) toB) with e | logs
      · simp [indexLoop, hc, hf]
      · have hcur_e : cur ≤ min (cur + bs - 1) toB := le_min (by omega) hc
        have := ih (min (cur + bs - 1) toB + 1) (min (cur + bs - 1) toB)
          (Nat.le_succ _)
        simp only [indexLoop, if_pos hc, hf]
        omega
    · simp [indexLoop, hc]

/-- `foldl` to the last second component coincides with `getLast?`. -/
theorem foldl_snd_getLast (c : Nat) (l : List (Nat × Nat)) :
    l.foldl (fun _ r => r.2) c = ((l.getLast?).map Prod.snd).getD c := by
  induction l generalizing c with
  | nil => rfl
  | cons x xs ih =>
    rw [List.foldl_cons, ih]
    cases xs with
    | nil => rfl
    | cons y ys =>
      rw [List.getLast?_cons_cons,
        List.getLast?_eq_getLast_of_ne_nil (List.cons_ne_nil y ys)]
      rfl

/-- `foldl` to the last element coincides with `getLast?`. -/
theorem foldl_id_getLast (c : Nat) (l : List Nat) :
    l.foldl (fun _ x => x) c = (l.getLast?).getD c := by
  induction l generalizing c with
  | nil => rfl
  | cons x xs ih =>
    rw [List.foldl_cons, ih]
    cases xs with
    | nil => rfl
    | cons y ys =>
      rw [List.getLast?_cons_cons,
        List.getLast?_eq_getLast_of_ne_nil (List.cons_ne_nil y ys)]
      rfl

/-- The live loop always issues its first fetch over
`[cursor + 1, first head]`, whatever the fetch outcome. -/
theorem subLoop_first (fetch : Nat → Nat → Except String (List Log)) (h : Nat)
    (hs : List Nat) (cursor : Nat) :
    (subLoop fetch (h :: hs) cursor).ranges.head? = some (cursor + 1, h) := by
  rcases hf : fetch (cursor + 1) h with e | logs <;>
    simp [subLoop, hf, processAll_ok]

/-- Live loop, all-fetches-succeed case, for heads strictly ascending from the
cursor: the loop succeeds, the cursor ends at the last head, every issued
range lies strictly above the initial cursor, and the ranges cover
`(cursor, last head]`. -/
theorem subLoop_ok (fetch : Nat → Nat → Except String (List Log))
    (hok : ∀ a b, ∃ l, fetch a b = .ok l) :
    ∀ (heads : List Nat) (cursor : Nat), List.Chain (· < ·) cursor heads →
    (∃ logs, (subLoop fetch heads cursor).result = .ok logs) ∧
    (subLoop fetch heads cursor).cursor = heads.foldl (fun _ x => x) cursor ∧
    (∀ r ∈ (subLoop fetch heads cursor).ranges, cursor < r.1 ∧ r.1 ≤ r.2) ∧
    (∀ n, cursor < n → n ≤ heads.foldl (fun _ x => x) cursor →
      ∃ r ∈ (subLoop fetch heads cursor).ranges, r.1 ≤ n ∧ n ≤ r.2) := by
  intro heads
  induction heads with
  | nil =>
    intro cursor _
    exact ⟨⟨[], rfl⟩, rfl, by simp [subLoop], fun n h1 h2 => by simp [List.foldl] at h2; omega⟩
  | cons h hs ih =>
    intro cursor hchain
    rw [List.chain_cons] at hchain
    obtain ⟨hlt, hchain⟩ := hchain
    obtain ⟨logs, hf⟩ := hok (cursor + 1) h
    obtain ⟨⟨logs', hres⟩, hcurs, hrange, hcover⟩ := ih h hchain
    refine ⟨⟨logs ++ logs', ?_⟩, ?_, ?_, ?_⟩
    · simp [subLoop, hf, processAll_ok, hres, Except.map]
    · simp [subLoop, hf, processAll_ok, hcurs]
    · intro r hr
      simp only [subLoop, hf, processAll_ok] at hr
      rcases List.mem_cons.mp hr with rfl | hr
      · exact ⟨Nat.lt_succ_self cursor, by omega⟩
      · have := hrange r hr
        omega
    · intro n h1 h2
      simp only [subLoop, hf, processAll_ok]
      simp only [List.foldl_cons] at h2
      by_cases hn : n ≤ h
      · exact ⟨(cursor + 1, h), List.mem_cons_self _ _, by omega, hn⟩
      · obtain ⟨r, hr, hb⟩ := hcover n (by omega) h2
        exact ⟨r, List.mem_cons_of_mem _ hr, hb⟩

/-- Live loop: the cursor never decreases when the observed heads strictly
ascend from it — for any fetch oracle. -/
theorem subLoop_cursor_mono (fetch : Nat → Nat → Except String (List Log)) :
    ∀ (heads : List Nat) (cursor : Nat), List.Chain (· < ·) cursor heads →
    cursor ≤ (subLoop fetch heads cursor).cursor := by
  intro heads
  induction heads with
  | nil => intro cursor _; exact Nat.le_refl _
  | cons h hs ih =>
    intro cursor hchain
    rw [List.chain_cons] at hchain
    obtain ⟨hlt, hchain⟩ := hchain
    rcases hf : fetch (cursor + 1) h with e | logs
    · simp [subLoop, hf]
    · have := ih h hchain
      simp [subLoop, hf, processAll_ok]
      omega

/-- Live loop: a propagated error is a fetch error. -/
theorem subLoop_err (fetch : Nat → Nat → Except String (List Log)) :
    ∀ (heads : List Nat) (cursor : Nat) (e : String),
    (subLoop fetch heads cursor).result = .error e →
    ∃ a b, fetch a b = .error e := by
  intro heads
  induction heads with
  | nil => intro cursor e hres; simp [subLoop] at hres
  | cons h hs ih =>
    intro cursor e hres
    rcases hf : fetch (cursor + 1) h with e' | logs
    · simp only [subLoop, hf] at hres
      obtain rfl : e' = e := by simpa using hres
      exact ⟨cursor + 1, h, hf⟩
    · simp only [subLoop, hf, processAll_ok] at hres
      rcases hr : (subLoop fetch hs h).result with e'' | l
      · rw [hr] at hres
        obtain rfl : e'' = e := by simpa [Except.map] using hres
        exact ih h _ hr
      · rw [hr] at hres
        simp [Except.map] at hres

/-- `index_events` returns the loop's fetch ranges in every outcome. -/
theorem index_events_ranges (fetch : Nat → Nat → Except String (List Log)) (bs : Nat)
    (from_block to_block : Nat) (s : IndexerState) :
    (index_events fetch bs from_block to_block s).ranges =
      (indexLoop fetch bs to_block (to_block + 1 - from_block)
        from_block s.last_indexed_block).ranges := by
  rcases hr : (indexLoop fetch bs to_block (to_block + 1 - from_block)
      from_block s.last_indexed_block).result with e | logs <;>
    simp [index_events, hr, processAll_ok]

/-- `index_events` returns the loop's cursor in every outcome. -/
theorem index_events_cursor (fetch : Nat → Nat → Except String (List Log)) (bs : Nat)
    (from_block to_block : Nat) (s : IndexerState) :
    (index_events fetch bs from_block to_block s).state.last_indexed_block =
      (indexLoop fetch bs to_block (to_block + 1 - from_block)
        from_block s.last_indexed_block).cursor := by
  rcases hr : (indexLoop fetch bs to_block (to_block + 1 - from_block)
      from_block s.last_indexed_block).result with e | logs <;>
    simp [index_events, hr, processAll_ok]

/-- A successful `index_events` run ends in state
`⟨to_block (if the historical interval was nonempty), is_indexing = false⟩`. -/
theorem index_events_ok_state (fetch : Nat → Nat → Except String (List Log)) (bs : Nat)
    (from_block to_block : Nat) (s : IndexerState) (hbs : 1 ≤ bs)
    (hres : (index_events fetch bs from_block to_block s).result = .ok ()) :
    (index_events fetch bs from_block to_block s).state =
      ⟨if from_block ≤ to_block then to_block else s.last_indexed_block, false⟩ := by
  rcases hr : (indexLoop fetch bs to_block (to_block + 1 - from_block)
      from_block s.last_indexed_block).result with e | logs
  · simp [index_events, hr] at hres
  · have hc := indexLoop_ok_cursor fetch bs to_block hbs
      (to_block + 1 - from_block) from_block s.last_indexed_block
      (Nat.le_refl _) ⟨logs, hr⟩
    simp [index_events, hr, processAll_ok, hc]

/-- A fully successful fetch oracle makes `index_events` succeed. -/
theorem index_events_ok (fetch : Nat → Nat → Except String (List Log)) (bs : Nat)
    (from_block to_block : Nat) (s : IndexerState) (hbs : 1 ≤ bs)
    (hok : ∀ a b, ∃ l, fetch a b = .ok l) :
    (index_events fetch bs from_block to_block s).result = .ok () := by
  obtain ⟨⟨logs, hres⟩, -, -⟩ := indexLoop_ok fetch bs to_block hbs hok
    (to_block + 1 - from_block) from_block s.last_indexed_block (Nat.le_refl _)
  simp [index_events, hres, processAll_ok]

/-- Main safety invariant of the watcher system: the buffer never exceeds the
capacity, and while the receiver is alive the received prefix followed by the
buffered queue is exactly the sequence of manifests produced so far
(`0, 1, 2, …`), with the producer's `block_number` tracking the count. -/
def WInv (cap : Nat) (s : WatchState) : Prop :=
  s.queue.length ≤ cap ∧
  (s.receiverAlive = true →
    s.received ++ s.queue = List.range (s.received.length + s.queue.length) ∧
    s.block_number + (if s.pc = ProducerPC.afterSend then 1 else 0) =
      s.received.length + s.queue.length)

theorem winv_init (cap : Nat) : WInv cap WatchState.init := by
  refine ⟨by simp [WatchState.init], fun _ => ⟨rfl, by simp [WatchState.init]⟩⟩

theorem winv_step {cap : Nat} {s t : WatchState} (hinv : WInv cap s)
    (hstep : WStep cap s t) : WInv cap t := by
  obtain ⟨hlen, halive⟩ := hinv
  cases hstep with
  | sendOk hpc hal hlt =>
    obtain ⟨hr, hbn⟩ := halive hal
    rw [hpc] at hbn
    simp only [reduceCtorEq, reduceIte] at hbn
    refine ⟨?_, fun _ => ⟨?_, ?_⟩⟩
    · show (s.queue ++ [s.block_number]).length ≤ cap
      simp only [List.length_append, List.length_cons, List.length_nil]
      omega
    · show s.received ++ (s.queue ++ [s.block_number]) =
        List.range (s.received.length + (s.queue ++ [s.block_number]).length)
      rw [← List.append_assoc, hr,
        show s.block_number = s.received.length + s.queue.length by omega,
        ← List.range_succ]
      congr 1
      simp only [List.length_append, List.length_cons, List.length_nil]
      omega
    · show s.block_number + (if ProducerPC.afterSend = ProducerPC.afterSend then 1 else 0) =
        s.received.length + (s.queue ++ [s.block_number]).length
      simp only [reduceIte, List.length_append, List.length_cons, List.length_nil]
      omega
  | sendClosed hpc hal =>
    exact ⟨hlen, fun h => absurd h (by simp [hal])⟩
  | tick hpc =>
    refine ⟨hlen, fun hal => ?_⟩
    obtain ⟨hr, hbn⟩ := halive hal
    rw [hpc] at hbn
    simp only [reduceIte] at hbn
    refine ⟨hr, ?_⟩
    show s.block_number + 1 + (if ProducerPC.beforeSend = ProducerPC.afterSend then 1 else 0) =
      s.received.length + s.queue.length
    simp only [reduceCtorEq, reduceIte]
    omega
  | recv m rest hal hq =>
    obtain ⟨hr, hbn⟩ := halive hal
    rw [hq] at hr hlen hbn
    simp only [List.length_cons] at hlen hr hbn
    refine ⟨?_, fun _ => ⟨?_, ?_⟩⟩
    · show rest.length ≤ cap
      omega
    · show (s.received ++ [m]) ++ rest = List.range ((s.received ++ [m]).length + rest.length)
      rw [List.append_assoc]
      simp only [List.singleton_append, List.length_append, List.length_cons, List.length_nil]
      rw [hr]
      congr 1
      omega
    · show s.block_number + (if s.pc = ProducerPC.afterSend then 1 else 0) =
        (s.received ++ [m]).length + rest.length
      simp only [List.length_append, List.length_cons, List.length_nil]
      omega
  | dropReceiver hal =>
    exact ⟨by simpa using Nat.zero_le cap, fun h => absurd h (by simp)⟩

theorem winv_reachable {cap : Nat} {s : WatchState} (h : WReachable cap s) :
    WInv cap s := by
  induction h with
  | init => exact winv_init cap
  | step _ hstep ih => exact winv_step ih hstep

/-- `subscribe_and_index` exposes the live loop's cursor. -/
theorem subscribe_and_index_cursor (fetch : Nat → Nat → Except String (List Log))
    (heads : List Nat) (s : IndexerState) :
    (subscribe_and_index fetch heads s).state.last_indexed_block =
      (subLoop fetch heads s.last_indexed_block).cursor := rfl

/-- `subscribe_and_index` exposes the live loop's fetch ranges. -/
theorem subscribe_and_index_ranges (fetch : Nat → Nat → Except String (List Log))
    (heads : List Nat) (s : IndexerState) :
    (subscribe_and_index fetch heads s).ranges =
      (subLoop fetch heads s.last_indexed_block).ranges := rfl

/-- `run`, historical phase failing: the error and the state propagate, no
live fetch happens. -/
theorem run_err (cfg : EventIndexerConfig) (latest : Nat)
    (fetch : Nat → Nat → Except String (List Log)) (heads : List Nat)
    (sb : Option Nat) (s : IndexerState) (e : String)
    (hlt : sb.getD s.last_indexed_block < latest)
    (he : (index_events fetch cfg.batch_size (sb.getD s.last_indexed_block) latest
      ⟨sb.getD s.last_indexed_block, s.is_indexing⟩).result = .error e) :
    run cfg latest fetch heads sb s =
      ⟨.error e,
       (index_events fetch cfg.batch_size (sb.getD s.last_indexed_block) latest
         ⟨sb.getD s.last_indexed_block, s.is_indexing⟩).state,
       (index_events fetch cfg.batch_size (sb.getD s.last_indexed_block) latest
         ⟨sb.getD s.last_indexed_block, s.is_indexing⟩).ranges,
       []⟩ := by
  simp [run, hlt, he]

/-- `run`, historical phase succeeding: the live phase starts from the
historical phase's final state. -/
theorem run_ok_hist (cfg : EventIndexerConfig) (latest : Nat)
    (fetch : Nat → Nat → Except String (List Log)) (heads : List Nat)
    (sb : Option Nat) (s : IndexerState)
    (hlt : sb.getD s.last_indexed_block < latest)
    (he : (index_events fetch cfg.batch_size (sb.getD s.last_indexed_block) latest
      ⟨sb.getD s.last_indexed_block, s.is_indexing⟩).result = .ok ()) :
    run cfg latest fetch heads sb s =
      ⟨(subscribe_and_index fetch heads
          (index_events fetch cfg.batch_size (sb.getD s.last_indexed_block) latest
            ⟨sb.getD s.last_indexed_block, s.is_indexing⟩).state).result,
       (subscribe_and_index fetch heads
          (index_events fetch cfg.batch_size (sb.getD s.last_indexed_block) latest
            ⟨sb.getD s.last_indexed_block, s.is_indexing⟩).state).state,
       (index_events fetch cfg.batch_size (sb.getD s.last_indexed_block) latest
         ⟨sb.getD s.last_indexed_block, s.is_indexing⟩).ranges,
       (subscribe_and_index fetch heads
          (index_events fetch cfg.batch_size (sb.getD s.last_indexed_block) latest
            ⟨sb.getD s.last_indexed_block, s.is_indexing⟩).state).ranges⟩ := by
  simp [run, hlt, he]

/-- `run`, no historical phase (`start ≥ latest`): only the live phase runs,
from the cursor set to `start`. -/
theorem run_nohist (cfg : EventIndexerConfig) (latest : Nat)
    (fetch : Nat → Nat → Except String (List Log)) (heads : List Nat)
    (sb : Option Nat) (s : IndexerState)
    (hge : ¬ sb.getD s.last_indexed_block < latest) :
    run cfg latest fetch heads sb s =
      ⟨(subscribe_and_index fetch heads
          ⟨sb.getD s.last_indexed_block, s.is_indexing⟩).result,
       (subscribe_and_index fetch heads
          ⟨sb.getD s.last_indexed_block, s.is_indexing⟩).state,
       [],
       (subscribe_and_index fetch heads
          ⟨sb.getD s.last_indexed_block, s.is_indexing⟩).ranges⟩ := by
  simp [run, hge]

/-- Concrete oracle: every fetch succeeds with no logs. -/
def fetchOkNil : Nat → Nat → Except String (List Log) := fun _ _ => .ok []

/-- Concrete oracle: every fetch fails. -/
def fetchBoom : Nat → Nat → Except String (List Log) := fun _ _ => .error "boom"

/-!
## Claim theorems
-/

/-- C2: for every `from ≤ to` and `batch_size ≥ 1` (and a fetch oracle that
succeeds, so the loop completes), `index_events(from, to)` issues its fetches
over sub-ranges that are consecutive, pairwise disjoint and ascending, each of
length at most `batch_size`, whose union is exactly `[from, to]`; in
particular `from = 0, to = 5, batch_size = 2` yields `[0,1], [2,3], [4,5]`. -/
theorem claim_C2 (fetch : Nat → Nat → Except String (List Log)) (bs : Nat)
    (from_block to_block : Nat) (s : IndexerState)
    (hbs : 1 ≤ bs) (hle : from_block ≤ to_block)
    (hok : ∀ a b, ∃ l, fetch a b = .ok l) :
    List.Chain' (fun r q => q.1 = r.2 + 1)
      (index_events fetch bs from_block to_block s).ranges ∧
    List.Pairwise (fun r q => r.2 < q.1)
      (index_events fetch bs from_block to_block s).ranges ∧
    (∀ r ∈ (index_events fetch bs from_block to_block s).ranges,
      r.1 ≤ r.2 ∧ r.2 + 1 ≤ r.1 + bs) ∧
    (∀ n, (from_block ≤ n ∧ n ≤ to_block) ↔
      ∃ r ∈ (index_events fetch bs from_block to_block s).ranges,
        r.1 ≤ n ∧ n ≤ r.2) ∧
    (index_events fetchOkNil 2 0 5 IndexerState.new).ranges = [(0, 1), (2, 3), (4, 5)] := by
  have hcc : ChainCover bs from_block to_block
      (index_events fetch bs from_block to_block s).ranges := by
    rw [index_events_ranges]
    exact (indexLoop_ok fetch bs to_block hbs hok (to_block + 1 - from_block)
      from_block s.last_indexed_block (Nat.le_refl _)).2.2
  refine ⟨cc_chain hcc, cc_pairwise hcc, ?_, ?_, by decide⟩
  · intro r hr
    have := cc_bounds hcc r hr
    exact ⟨this.2.1, this.2.2.2⟩
  · intro n
    constructor
    · rintro ⟨h1, h2⟩
      exact cc_cover hcc n h1 h2
    · rintro ⟨r, hr, hb1, hb2⟩
      have := cc_bounds hcc r hr
      exact ⟨by omega, by omega⟩

/-- C2 witness: concrete instance with `from = 0, to = 5, batch_size = 2`. -/
theorem claim_C2_witness :
    (index_events fetchOkNil 2 0 5 IndexerState.new).ranges = [(0, 1), (2, 3), (4, 5)] :=
  (claim_C2 fetchOkNil 2 0 5 IndexerState.new (by decide) (by decide)
    (fun a b => ⟨[], rfl⟩)).2.2.2.2

/-- C3: for `from ≤ to` and positive batch size, a successful
`index_events(from, to)` leaves `last_indexed_block = to`; and a failing run
leaves the cursor at the upper bound of the last successfully fetched
sub-range (its initial value when the very first fetch failed): the error came
from the last issued fetch and every earlier fetch succeeded. -/
theorem claim_C3 (fetch : Nat → Nat → Except String (List Log)) (bs : Nat)
    (from_block to_block : Nat) (s : IndexerState)
    (hbs : 1 ≤ bs) (hle : from_block ≤ to_block) :
    ((index_events fetch bs from_block to_block s).result = .ok () →
      (index_events fetch bs from_block to_block s).state.last_indexed_block = to_block) ∧
    (∀ e, (index_events fetch bs from_block to_block s).result = .error e →
      ∃ pre a b, (index_events fetch bs from_block to_block s).ranges = pre ++ [(a, b)] ∧
        fetch a b = .error e ∧
        (∀ r ∈ pre, ∃ l, fetch r.1 r.2 = .ok l) ∧
        (index_events fetch bs from_block to_block s).state.last_indexed_block =
          ((pre.getLast?).map Prod.snd).getD s.last_indexed_block) := by
  constructor
  · intro hres
    rw [index_events_ok_state fetch bs from_block to_block s hbs hres]
    simp [hle]
  · intro e hres
    rcases hr : (indexLoop fetch bs to_block (to_block + 1 - from_block)
        from_block s.last_indexed_block).result with e' | logs
    · obtain rfl : e' = e := by simpa [index_events, hr] using hres
      obtain ⟨pre, a, b, hranges, hfe, hpre, hcurs⟩ :=
        indexLoop_err fetch bs to_block hbs (to_block + 1 - from_block)
          from_block s.last_indexed_block _ (Nat.le_refl _) hr
      refine ⟨pre, a, b, ?_, hfe, hpre, ?_⟩
      · rw [index_events_ranges]
        exact hranges
      · rw [index_events_cursor, hcurs, foldl_snd_getLast]
    · simp [index_events, hr, processAll_ok] at hres

/-- C3 witness: success instance (cursor lands on `to = 5`). -/
theorem claim_C3_witness :
    (index_events fetchOkNil 2 0 5 IndexerState.new).state.last_indexed_block = 5 :=
  (claim_C3 fetchOkNil 2 0 5 IndexerState.new (by decide) (by decide)).1 rfl

/-- C7 (amended): `is_indexing` is `false` at construction, `false` again after
a successful `index_events` return, but on an error return it remains `true`
(the early `?` return skips the reset). -/
theorem claim_C7_amended (fetch : Nat → Nat → Except String (List Log)) (bs : Nat)
    (from_block to_block : Nat) (s : IndexerState) :
    IndexerState.new.is_indexing = false ∧
    ((index_events fetch bs from_block to_block s).result = .ok () →
      (index_events fetch bs from_block to_block s).state.is_indexing = false) ∧
    (∀ e, (index_events fetch bs from_block to_block s).result = .error e →
      (index_events fetch bs from_block to_block s).state.is_indexing = true) := by
  refine ⟨rfl, ?_, ?_⟩
  · intro hres
    rcases hr : (indexLoop fetch bs to_block (to_block + 1 - from_block)
        from_block s.last_indexed_block).result with e | logs
    · simp [index_events, hr] at hres
    · simp [index_events, hr, processAll_ok]
  · intro e hres
    rcases hr : (indexLoop fetch bs to_block (to_block + 1 - from_block)
        from_block s.last_indexed_block).result with e' | logs
    · simp [index_events, hr]
    · simp [index_events, hr, processAll_ok] at hres

/-- C7 witness: the error path of the amended claim at a concrete input. -/
theorem claim_C7_witness :
    (index_events fetchBoom 2 0 5 IndexerState.new).state.is_indexing = true :=
  (claim_C7_amended fetchBoom 2 0 5 IndexerState.new).2.2 "boom" rfl

/-- C7 counterexample: with every fetch failing, `index_events(0, 5)` returns
an error and leaves `is_indexing = true`, contradicting the claim that the
flag is `false` again on every error return. -/
theorem claim_C7_cex :
    (index_events fetchBoom 2 0 5 IndexerState.new).result = .error "boom" ∧
    (index_events fetchBoom 2 0 5 IndexerState.new).state.is_indexing = true ∧
    ¬ (index_events fetchBoom 2 0 5 IndexerState.new).state.is_indexing = false := by
  decide

/-- C10: `process_log` succeeds on every log (hence so does the batch
processing loop), and an error from `index_events` or `subscribe_and_index`
is always a propagated `get_logs` fetch error, never a log-processing one. -/
theorem claim_C10 :
    (∀ log, process_log log = .ok ()) ∧
    (∀ logs, processAll logs = .ok ()) ∧
    (∀ (fetch : Nat → Nat → Except String (List Log)) bs from_block to_block s e,
      1 ≤ bs → (index_events fetch bs from_block to_block s).result = .error e →
      ∃ a b, fetch a b = .error e) ∧
    (∀ (fetch : Nat → Nat → Except String (List Log)) heads s e,
      (subscribe_and_index fetch heads s).result = .error e →
      ∃ a b, fetch a b = .error e) := by
  refine ⟨fun _ => rfl, processAll_ok, ?_, ?_⟩
  · intro fetch bs from_block to_block s e hbs hres
    rcases hr : (indexLoop fetch bs to_block (to_block + 1 - from_block)
        from_block s.last_indexed_block).result with e' | logs
    · obtain rfl : e' = e := by simpa [index_events, hr] using hres
      obtain ⟨pre, a, b, -, hfe, -, -⟩ :=
        indexLoop_err fetch bs to_block hbs (to_block + 1 - from_block)
          from_block s.last_indexed_block _ (Nat.le_refl _) hr
      exact ⟨a, b, hfe⟩
    · simp [index_events, hr, processAll_ok] at hres
  · intro fetch heads s e hres
    rcases hr : (subLoop fetch heads s.last_indexed_block).result with e' | l
    · obtain rfl : e' = e := by
        simpa [subscribe_and_index, hr, Except.map] using hres
      exact subLoop_err fetch heads s.last_indexed_block _ hr
    · simp [subscribe_and_index, hr, Except.map] at hres

/-- C10 witness: a failing fetch is the source of a concrete failing
`index_events` run. -/
theorem claim_C10_witness : ∃ a b, fetchBoom a b = Except.error "boom" :=
  claim_C10.2.2.1 fetchBoom 1 0 0 IndexerState.new "boom" (by decide) rfl

/-- Concrete `get_logs` oracle failing on the first two attempts. -/
def glFailTwice : Filter → Nat → Except String (List Log) :=
  fun _ k => if k < 2 then .error "e" else .ok []

/-- Concrete `get_logs` oracle failing on every attempt. -/
def glFailAll : Filter → Nat → Except String (List Log) := fun _ _ => .error "e"

/-- C4: for `N ≤ 3` consecutive `get_logs` failures followed by a success,
`fetch_logs_range` returns that success after exactly `N + 1` attempts; when
the first four attempts all fail it makes exactly four attempts and returns a
provider error. Every attempt re-issues the identical filter. -/
theorem claim_C4 (gl : Filter → Nat → Except String (List Log))
    (address topic fromB toB : Nat) :
    (∀ N, N ≤ 3 →
      (∀ k, k < N → ∃ e, gl ⟨fromB, toB, address, topic⟩ k = .error e) →
      (∃ logs, gl ⟨fromB, toB, address, topic⟩ N = .ok logs) →
      (fetch_logs_range gl address topic fromB toB).result =
        gl ⟨fromB, toB, address, topic⟩ N ∧
      (fetch_logs_range gl address topic fromB toB).calls.length = N + 1 ∧
      (∀ f ∈ (fetch_logs_range gl address topic fromB toB).calls,
        f = ⟨fromB, toB, address, topic⟩)) ∧
    ((∀ k, k ≤ 3 → ∃ e, gl ⟨fromB, toB, address, topic⟩ k = .error e) →
      (∃ e, (fetch_logs_range gl address topic fromB toB).result = .error e) ∧
      (fetch_logs_range gl address topic fromB toB).calls.length = 3 + 1 ∧
      (∀ f ∈ (fetch_logs_range gl address topic fromB toB).calls,
        f = ⟨fromB, toB, address, topic⟩)) := by
  constructor
  · intro N hN hfail hok
    have hspec := fetchGo_ok_spec gl ⟨fromB, toB, address, topic⟩ N MAX_RETRIES 0
      (by simpa [MAX_RETRIES] using hN)
      (fun k hk => by simpa using hfail k hk)
      (by simpa using hok)
    rw [fetch_logs_range, hspec]
    refine ⟨by simp, by simp, ?_⟩
    intro f hf
    exact List.eq_of_mem_replicate hf
  · intro hfail
    obtain ⟨e, hspec⟩ := fetchGo_fail_spec gl ⟨fromB, toB, address, topic⟩ MAX_RETRIES 0
      (fun k hk => by simpa using hfail k (by simpa [MAX_RETRIES] using hk))
    rw [fetch_logs_range, hspec]
    refine ⟨⟨e, rfl⟩, by simp [MAX_RETRIES], ?_⟩
    intro f hf
    exact List.eq_of_mem_replicate hf

/-- C4 witness: two failures then success gives exactly three attempts. -/
theorem claim_C4_witness :
    (fetch_logs_range glFailTwice 0 0 3 9).calls.length = 2 + 1 :=
  ((claim_C4 glFailTwice 0 0 3 9).1 2 (by decide)
    (fun k hk => ⟨"e", by simp [glFailTwice, hk]⟩)
    ⟨[], by simp [glFailTwice]⟩).2.1

/-- C5 (amended): the retry delays are hardcoded to `k * 1000` ms for retry
`k`; this equals `k * retry_delay_ms` for the default configuration
(`retry_delay_ms = 1000`), and three consecutive failures followed by a
success incur exactly four attempts with delays `1·1000, 2·1000, 3·1000`. -/
theorem claim_C5_amended (gl : Filter → Nat → Except String (List Log))
    (address topic fromB toB : Nat)
    (hfail : ∀ k, k < 3 → ∃ e, gl ⟨fromB, toB, address, topic⟩ k = .error e)
    (hok : ∃ logs, gl ⟨fromB, toB, address, topic⟩ 3 = .ok logs) :
    (fetch_logs_range gl address topic fromB toB).calls.length = 4 ∧
    (fetch_logs_range gl address topic fromB toB).delays =
      [1 * 1000, 2 * 1000, 3 * 1000] ∧
    (fetch_logs_range gl address topic fromB toB).delays =
      [1 * EventIndexerConfig.default.retry_delay_ms,
       2 * EventIndexerConfig.default.retry_delay_ms,
       3 * EventIndexerConfig.default.retry_delay_ms] := by
  have hspec := fetchGo_ok_spec gl ⟨fromB, toB, address, topic⟩ 3 MAX_RETRIES 0
    (by simp [MAX_RETRIES])
    (fun k hk => by simpa using hfail k hk)
    (by simpa using hok)
  rw [fetch_logs_range, hspec]
  exact ⟨by simp, rfl, rfl⟩

/-- C5 witness: three failures then success at a concrete oracle. -/
theorem claim_C5_witness :
    (fetch_logs_range (fun f k => if k < 3 then .error "e" else .ok []) 0 0 3 9).calls.length
      = 4 :=
  (claim_C5_amended (fun f k => if k < 3 then .error "e" else .ok []) 0 0 3 9
    (fun k hk => ⟨"e", by simp [hk]⟩) ⟨[], by simp⟩).1

/-- C5 counterexample: for a configuration with `retry_delay_ms = 2000` the
actual delays are still `1000, 2000, 3000` — not `k * retry_delay_ms` — so the
claim fails for non-default configurations (the code hardcodes the base
delay). -/
theorem claim_C5_cex :
    (fetch_logs_range glFailAll 0 0 0 0).delays = [1000, 2000, 3000] ∧
    (EventIndexerConfig.mk 1000 3 2000 10000).retry_delay_ms = 2000 ∧
    (fetch_logs_range glFailAll 0 0 0 0).delays ≠
      [1 * (EventIndexerConfig.mk 1000 3 2000 10000).retry_delay_ms,
       2 * (EventIndexerConfig.mk 1000 3 2000 10000).retry_delay_ms,
       3 * (EventIndexerConfig.mk 1000 3 2000 10000).retry_delay_ms] := by
  decide

/-- C6 (amended): `last_indexed_block` is non-decreasing across
`index_events` provided the call starts at or above the cursor
(`cursor ≤ from`), across `subscribe_and_index` provided the observed heads
strictly ascend from the cursor, and across `run` provided the resolved start
does not rewind the cursor — the unrestricted claim fails because an explicit
lower start (or target interval) rewinds the cursor. -/
theorem claim_C6_amended :
    (∀ (fetch : Nat → Nat → Except String (List Log)) bs from_block to_block s,
      1 ≤ bs → s.last_indexed_block ≤ from_block →
      s.last_indexed_block ≤
        (index_events fetch bs from_block to_block s).state.last_indexed_block) ∧
    (∀ (fetch : Nat → Nat → Except String (List Log)) heads s,
      List.Chain (· < ·) s.last_indexed_block heads →
      s.last_indexed_block ≤
        (subscribe_and_index fetch heads s).state.last_indexed_block) ∧
    (∀ cfg latest (fetch : Nat → Nat → Except String (List Log)) heads sb s,
      1 ≤ cfg.batch_size →
      s.last_indexed_block ≤ sb.getD s.last_indexed_block →
      List.Chain (· < ·) (max (sb.getD s.last_indexed_block) latest) heads →
      s.last_indexed_block ≤ (run cfg latest fetch heads sb s).state.last_indexed_block) := by
  refine ⟨?_, ?_, ?_⟩
  · intro fetch bs from_block to_block s hbs hc
    rw [index_events_cursor]
    exact indexLoop_cursor_mono fetch bs to_block hbs
      (to_block + 1 - from_block) from_block s.last_indexed_block hc
  · intro fetch heads s hchain
    rw [subscribe_and_index_cursor]
    exact subLoop_cursor_mono fetch heads s.last_indexed_block hchain
  · intro cfg latest fetch heads sb s hbs hstart hchain
    by_cases hlt : sb.getD s.last_indexed_block < latest
    · rcases hie : (index_events fetch cfg.batch_size (sb.getD s.last_indexed_block) latest
          ⟨sb.getD s.last_indexed_block, s.is_indexing⟩).result with e | u
      · rw [run_err cfg latest fetch heads sb s e hlt hie]
        show s.last_indexed_block ≤
          (index_events fetch cfg.batch_size (sb.getD s.last_indexed_block) latest
            ⟨sb.getD s.last_indexed_block, s.is_indexing⟩).state.last_indexed_block
        have hmono : sb.getD s.last_indexed_block ≤
            (index_events fetch cfg.batch_size (sb.getD s.last_indexed_block) latest
              ⟨sb.getD s.last_indexed_block, s.is_indexing⟩).state.last_indexed_block := by
          rw [index_events_cursor]
          exact indexLoop_cursor_mono fetch cfg.batch_size latest hbs _ _ _ (Nat.le_refl _)
        omega
      · cases u
        rw [run_ok_hist cfg latest fetch heads sb s hlt hie]
        show s.last_indexed_block ≤
          (subscribe_and_index fetch heads
            (index_events fetch cfg.batch_size (sb.getD s.last_indexed_block) latest
              ⟨sb.getD s.last_indexed_block, s.is_indexing⟩).state).state.last_indexed_block
        rw [index_events_ok_state fetch cfg.batch_size (sb.getD s.last_indexed_block) latest
          ⟨sb.getD s.last_indexed_block, s.is_indexing⟩ hbs hie]
        show s.last_indexed_block ≤ (subLoop fetch heads
          (if sb.getD s.last_indexed_block ≤ latest then latest
            else sb.getD s.last_indexed_block)).cursor
        rw [if_pos (Nat.le_of_lt hlt)]
        have hchain' : List.Chain (· < ·) latest heads := by
          rwa [Nat.max_eq_right (Nat.le_of_lt hlt)] at hchain
        have := subLoop_cursor_mono fetch heads latest hchain'
        omega
    · rw [run_nohist cfg latest fetch heads sb s hlt]
      show s.last_indexed_block ≤
        (subLoop fetch heads (sb.getD s.last_indexed_block)).cursor
      have hchain' : List.Chain (· < ·) (sb.getD s.last_indexed_block) heads := by
        rwa [Nat.max_eq_left (Nat.not_lt.mp hlt)] at hchain
      have := subLoop_cursor_mono fetch heads (sb.getD s.last_indexed_block) hchain'
      omega

/-- C6 witness: `run(None)` with all fetches succeeding never rewinds the
cursor. -/
theorem claim_C6_witness :
    IndexerState.new.last_indexed_block ≤
      (run EventIndexerConfig.default 5 fetchOkNil [7, 9] none
        IndexerState.new).state.last_indexed_block :=
  claim_C6_amended.2.2 EventIndexerConfig.default 5 fetchOkNil [7, 9] none
    IndexerState.new (by decide) (Nat.le_refl _)
    (by simp [IndexerState.new, List.chain_cons])

/-- C6 counterexample: a second `index_events` call over a lower interval
rewinds `last_indexed_block` from 10 to 5, contradicting unconditional
monotonicity. -/
theorem claim_C6_cex :
    (index_events fetchOkNil 1000 0 10 IndexerState.new).state.last_indexed_block = 10 ∧
    (index_events fetchOkNil 1000 0 5
      (index_events fetchOkNil 1000 0 10 IndexerState.new).state).state.last_indexed_block
      = 5 ∧
    ¬ (10 ≤ 5) := by
  decide

/-- C1: with all fetches succeeding and the subscription heads strictly
ascending from the post-historical cursor `c = max(start, latest)`, a `run`
has: first live fetch lower bound exactly `c + 1` (for any first head value);
zero historical fetches when `start = latest` (so the live phase starts at
`latest + 1`); no block in both a historical and a live fetch range; and no
block in `(start, last observed head]` uncovered. -/
theorem claim_C1 (cfg : EventIndexerConfig) (latest : Nat)
    (fetch : Nat → Nat → Except String (List Log)) (heads : List Nat)
    (start_block : Option Nat) (s : IndexerState)
    (hbs : 1 ≤ cfg.batch_size)
    (hok : ∀ a b, ∃ l, fetch a b = .ok l)
    (hheads : List.Chain (· < ·)
      (max (start_block.getD s.last_indexed_block) latest) heads) :
    (∀ h hs, heads = h :: hs →
      (run cfg latest fetch heads start_block s).liveRanges.head? =
        some (max (start_block.getD s.last_indexed_block) latest + 1, h)) ∧
    (start_block.getD s.last_indexed_block = latest →
      (run cfg latest fetch heads start_block s).histRanges = []) ∧
    (∀ r ∈ (run cfg latest fetch heads start_block s).histRanges,
      ∀ q ∈ (run cfg latest fetch heads start_block s).liveRanges, r.2 < q.1) ∧
    (∀ n, start_block.getD s.last_indexed_block < n →
      n ≤ (heads.getLast?).getD (max (start_block.getD s.last_indexed_block) latest) →
      ∃ r, (r ∈ (run cfg latest fetch heads start_block s).histRanges ∨
            r ∈ (run cfg latest fetch heads start_block s).liveRanges) ∧
        r.1 ≤ n ∧ n ≤ r.2) := by
  by_cases hlt : start_block.getD s.last_indexed_block < latest
  · have hmax : max (start_block.getD s.last_indexed_block) latest = latest :=
      Nat.max_eq_right (Nat.le_of_lt hlt)
    have hie : (index_events fetch cfg.batch_size
        (start_block.getD s.last_indexed_block) latest
        ⟨start_block.getD s.last_indexed_block, s.is_indexing⟩).result = .ok () :=
      index_events_ok fetch cfg.batch_size _ latest _ hbs hok
    have hstate := index_events_ok_state fetch cfg.batch_size
      (start_block.getD s.last_indexed_block) latest
      ⟨start_block.getD s.last_indexed_block, s.is_indexing⟩ hbs hie
    have hcc : ChainCover cfg.batch_size (start_block.getD s.last_indexed_block) latest
        (index_events fetch cfg.batch_size (start_block.getD s.last_indexed_block) latest
          ⟨start_block.getD s.last_indexed_block, s.is_indexing⟩).ranges := by
      rw [index_events_ranges]
      exact (indexLoop_ok fetch cfg.batch_size latest hbs hok _ _ _ (Nat.le_refl _)).2.2
    have hchain : List.Chain (· < ·) latest heads := hmax ▸ hheads
    obtain ⟨-, hcur, hrange, hcover⟩ := subLoop_ok fetch hok heads latest hchain
    rw [run_ok_hist cfg latest fetch heads start_block s hlt hie, hstate,
      if_pos (Nat.le_of_lt hlt)]
    refine ⟨?_, ?_, ?_, ?_⟩
    · intro h hs hh
      subst hh
      rw [hmax]
      show (subLoop fetch (h :: hs) latest).ranges.head? = some (latest + 1, h)
      exact subLoop_first fetch h hs latest
    · intro heq
      exact absurd heq (by omega)
    · intro r hr q hq
      have hrb := cc_bounds hcc r hr
      have hqb := (hrange q hq).1
      omega
    · intro n h1 h2
      rw [hmax, ← foldl_id_getLast] at h2
      by_cases hn : n ≤ latest
      · obtain ⟨r, hr, hb⟩ := cc_cover hcc n (by omega) hn
        exact ⟨r, Or.inl hr, hb⟩
      · obtain ⟨r, hr, hb⟩ := hcover n (by omega) h2
        exact ⟨r, Or.inr hr, hb⟩
  · have hge := Nat.not_lt.mp hlt
    have hmax : max (start_block.getD s.last_indexed_block) latest =
        start_block.getD s.last_indexed_block := Nat.max_eq_left hge
    have hchain : List.Chain (· < ·) (start_block.getD s.last_indexed_block) heads :=
      hmax ▸ hheads
    obtain ⟨-, hcur, hrange, hcover⟩ := subLoop_ok fetch hok heads
      (start_block.getD s.last_indexed_block) hchain
    rw [run_nohist cfg latest fetch heads start_block s hlt]
    refine ⟨?_, ?_, ?_, ?_⟩
    · intro h hs hh
      subst hh
      rw [hmax]
      show (subLoop fetch (h :: hs) (start_block.getD s.last_indexed_block)).ranges.head? =
        some (start_block.getD s.last_indexed_block + 1, h)
      exact subLoop_first fetch h hs _
    · intro _
      rfl
    · intro r hr
      exact absurd hr (List.not_mem_nil r)
    · intro n h1 h2
      rw [hmax, ← foldl_id_getLast] at h2
      obtain ⟨r, hr, hb⟩ := hcover n h1 h2
      exact ⟨r, Or.inr hr, hb⟩

/-- C1 witness: scenario B shape — `start = head = 5`, two new heads 7, 9: no
historical fetch and the first live fetch is `[6, 7]`. -/
theorem claim_C1_witness :
    (run EventIndexerConfig.default 5 fetchOkNil [7, 9] (some 5)
      IndexerState.new).histRanges = [] ∧
    (run EventIndexerConfig.default 5 fetchOkNil [7, 9] (some 5)
      IndexerState.new).liveRanges.head? = some (6, 7) := by
  have h := claim_C1 EventIndexerConfig.default 5 fetchOkNil [7, 9] (some 5)
    IndexerState.new (by decide) (fun a b => ⟨[], rfl⟩)
    (by simp [List.chain_cons])
  refine ⟨h.2.1 rfl, ?_⟩
  have := h.1 7 [9] rfl
  simpa using this

/-- C8: in every reachable watcher state the bounded channel holds at most
`cap` unreceived manifests; while the receiver is alive every manifest ever
sent is exactly accounted for as received-then-buffered (none dropped); and
when the buffer is full the producer's next send cannot complete — no step
moves it past `beforeSend` — until a consumer `recv` frees a slot, after which
the send completes. -/
theorem claim_C8 (cap : Nat) (s : WatchState) (hcap : 1 ≤ cap)
    (hreach : WReachable cap s) :
    s.queue.length ≤ cap ∧
    (s.receiverAlive = true →
      s.received ++ s.queue = List.range (s.received.length + s.queue.length)) ∧
    (s.queue.length = cap → s.receiverAlive = true → s.pc = ProducerPC.beforeSend →
      (∀ t, WStep cap s t → t.pc = ProducerPC.beforeSend) ∧
      (∃ t u, WStep cap s t ∧ t.received.length = s.received.length + 1 ∧
        WStep cap t u ∧ u.pc = ProducerPC.afterSend)) := by
  obtain ⟨hlen, halive⟩ := winv_reachable hreach
  refine ⟨hlen, fun h => (halive h).1, fun hfull hal hpc => ⟨?_, ?_⟩⟩
  · intro t ht
    cases ht with
    | sendOk hpc' hal' hlt => omega
    | sendClosed hpc' hal' => rw [hal] at hal'; cases hal'
    | tick hpc' => rfl
    | recv m rest hal' hq => exact hpc
    | dropReceiver hal' => exact hpc
  · obtain ⟨m, rest, hq⟩ : ∃ m rest, s.queue = m :: rest := by
      cases hqe : s.queue with
      | nil => rw [hqe] at hfull; simp at hfull; omega
      | cons m rest => exact ⟨m, rest, rfl⟩
    have hltq : rest.length < cap := by
      rw [hq] at hfull
      simp only [List.length_cons] at hfull
      omega
    refine ⟨{ s with queue := rest, received := s.received ++ [m] }, _,
      WStep.recv m rest hal hq, by simp, WStep.sendOk hpc hal hltq, rfl⟩

/-- C8 witness: with capacity 1 and the state reached after one send and one
tick, the buffer bound holds. -/
theorem claim_C8_witness :
    ({ pc := ProducerPC.beforeSend, block_number := 1, queue := [0],
       receiverAlive := true, received := [] } : WatchState).queue.length ≤ 1 :=
  (claim_C8 1
    { pc := ProducerPC.beforeSend, block_number := 1, queue := [0],
      receiverAlive := true, received := [] }
    (by decide)
    (WReachable.step (WReachable.step WReachable.init
      (WStep.sendOk rfl rfl (by decide))) (WStep.tick rfl))).1

/-- Every step out of a state whose receiver is dropped keeps the receiver
dropped, sends nothing, and advances the producer toward `done`. -/
theorem wstep_dead {cap : Nat} {s t : WatchState} (hdead : s.receiverAlive = false)
    (h : WStep cap s t) :
    t.receiverAlive = false ∧ t.queue = s.queue ∧ t.received = s.received ∧
    s.pc ≠ ProducerPC.done ∧
    (s.pc = ProducerPC.beforeSend → t.pc = ProducerPC.done) ∧
    (s.pc = ProducerPC.afterSend → t.pc = ProducerPC.beforeSend) := by
  cases h with
  | sendOk hpc hal hlt => rw [hdead] at hal; cases hal
  | sendClosed hpc hal =>
    exact ⟨hdead, rfl, rfl, by rw [hpc]; decide, fun _ => rfl,
      fun h2 => absurd (hpc ▸ h2) (by decide)⟩
  | tick hpc =>
    exact ⟨hdead, rfl, rfl, by rw [hpc]; decide,
      fun h2 => absurd (hpc ▸ h2) (by decide), fun _ => rfl⟩
  | recv m rest hal hq => rw [hdead] at hal; cases hal
  | dropReceiver hal => rw [hdead] at hal; cases hal

/-- C9: once the receiver is dropped, the producer's next send attempt fails
and terminates the task: from `beforeSend` the unique available step goes to
`done` without sending or altering anything; `done` has no steps; the
receiver never revives; and no three further steps exist (the task is gone
within the current tick). -/
theorem claim_C9 (cap : Nat) (s : WatchState) (hdead : s.receiverAlive = false) :
    (s.pc = ProducerPC.beforeSend →
      (∃ t, WStep cap s t) ∧
      (∀ t, WStep cap s t → t.pc = ProducerPC.done ∧ t.queue = s.queue ∧
        t.received = s.received)) ∧
    (s.pc = ProducerPC.done → ¬ ∃ t, WStep cap s t) ∧
    (∀ t, WStep cap s t → t.receiverAlive = false) ∧
    (∀ t u v, WStep cap s t → WStep cap t u → WStep cap u v → False) := by
  refine ⟨fun hpc => ⟨⟨_, WStep.sendClosed hpc hdead⟩, fun t ht => ?_⟩,
    fun hpc hex => ?_, fun t ht => (wstep_dead hdead ht).1, fun t u v ht hu hv => ?_⟩
  · have hd := wstep_dead hdead ht
    exact ⟨hd.2.2.2.2.1 hpc, hd.2.1, hd.2.2.1⟩
  · obtain ⟨t, ht⟩ := hex
    exact (wstep_dead hdead ht).2.2.2.1 hpc
  · have h1 := wstep_dead hdead ht
    have h2 := wstep_dead h1.1 hu
    have h3 := wstep_dead h2.1 hv
    cases hpc : s.pc with
    | beforeSend => exact absurd (h1.2.2.2.2.1 hpc) h2.2.2.2.1
    | afterSend => exact absurd (h2.2.2.2.2.1 (h1.2.2.2.2.2 hpc)) h3.2.2.2.1
    | done => exact absurd hpc h1.2.2.2.1

/-- C9 witness: a dropped-receiver state at `beforeSend` steps only to `done`,
leaving queue and received untouched. -/
theorem claim_C9_witness :
    (⟨ProducerPC.done, 5, [2], false, [9]⟩ : WatchState).pc = ProducerPC.done ∧
    (⟨ProducerPC.done, 5, [2], false, [9]⟩ : WatchState).queue =
      (⟨ProducerPC.beforeSend, 5, [2], false, [9]⟩ : WatchState).queue ∧
    (⟨ProducerPC.done, 5, [2], false, [9]⟩ : WatchState).received =
      (⟨ProducerPC.beforeSend, 5, [2], false, [9]⟩ : WatchState).received :=
  ((claim_C9 1 ⟨ProducerPC.beforeSend, 5, [2], false, [9]⟩ rfl).1 rfl).2 _
    (WStep.sendClosed rfl rfl)

end BasedRollup
